import Mathlib

/-!
Shallow embedding of the core of src/btc_dca_dashboard.py: the price-series
normalisation of load_btc_history (lines 47-72), its lru_cache memoisation
(line 47), and the DCA simulation (lines 83-98).

Calendar dates are epoch day numbers (days since 1970-01-01, UTC); provider
sample instants are epoch milliseconds; prices and USD amounts are rationals.
-/

set_option autoImplicit false

namespace BtcDca

/-- One row of the normalised price frame returned by load_btc_history:
a calendar date together with its (first-of-day) USD price. -/
structure PricePoint where
  date : Nat
  price : ℚ
deriving DecidableEq, Repr

/-- One row of daily_df after lines 84-88: the purchase record for one
calendar day that has a price in the series. -/
structure DCALedgerEntry where
  date : Nat
  price : ℚ
  usd_spent : ℚ
  btc_bought : ℚ
deriving DecidableEq, Repr

/-- The request triple supplied by the presentation layer:
(start_date, valuation_date, daily USD amount dca_usd). -/
structure DCARequest where
  start_date : Nat
  valuation_date : Nat
  dca_usd : ℚ
deriving DecidableEq, Repr

/-- The quantities the dashboard computes in lines 83-98 and renders. -/
structure DCAResult where
  ledger : List DCALedgerEntry
  total_btc : ℚ
  total_usd_invested : ℚ
  valuation_price : ℚ
  current_value : ℚ
  return_pct : ℚ
deriving DecidableEq, Repr

/-- The error taxonomy of the simulation step (spec section 7): the failure
of the valuation-date lookup at lines 94-96 (an out-of-bounds first-row
access when no row matches), and the division-by-zero class at line 98. -/
inductive SimError where
  | missingValuationPrice
  | divisionByZero
deriving DecidableEq, Repr

/-- Line 83: pd.date_range(start=start_date, end=valuation_date, freq="D"),
every calendar date from start_date to valuation_date inclusive (empty when
start_date exceeds valuation_date). -/
def buy_dates (start_date valuation_date : Nat) : List Nat :=
  List.range' start_date (valuation_date + 1 - start_date)

/-- Lines 84-88: left-merge the calendar against the series, drop the days
with no price, and attach usd_spent = dca_usd and
btc_bought = usd_spent / price to each remaining day.  The series is the
date-to-price mapping of price_df (dates are unique after the groupby of
line 71, so lookup by date is a function). -/
def daily_df (series : Nat → Option ℚ) (start_date valuation_date : Nat)
    (dca_usd : ℚ) : List DCALedgerEntry :=
  (buy_dates start_date valuation_date).filterMap fun d =>
    (series d).map fun p => ⟨d, p, dca_usd, dca_usd / p⟩

/-- Line 90: total_btc = daily_df["btc_bought"].sum(). -/
def total_btc (ledger : List DCALedgerEntry) : ℚ :=
  (ledger.map DCALedgerEntry.btc_bought).sum

/-- Line 91: total_usd_invested = daily_df["usd_spent"].sum(). -/
def total_usd_invested (ledger : List DCALedgerEntry) : ℚ :=
  (ledger.map DCALedgerEntry.usd_spent).sum

/-- Lines 83-98: the whole simulation step.  The valuation-price lookup of
lines 94-96 takes the first (unique) series row at valuation_date and fails
when there is none; then current_value and return_pct are computed. -/
def simulate (series : Nat → Option ℚ) (req : DCARequest) :
    Except SimError DCAResult :=
  let ledger := daily_df series req.start_date req.valuation_date req.dca_usd
  let tb := total_btc ledger
  let tu := total_usd_invested ledger
  match series req.valuation_date with
  | none => .error .missingValuationPrice
  | some vp =>
      let cv := tb * vp
      .ok ⟨ledger, tb, tu, vp, cv, (cv / tu - 1) * 100⟩

/-- Milliseconds per UTC day: provider sample instants are epoch
milliseconds, and line 69 converts them to UTC calendar dates. -/
def msPerDay : Nat := 86400000

/-- Line 69: the UTC calendar date of a provider sample (ms, price). -/
def sampleDate (s : Nat × ℚ) : Nat := s.1 / msPerDay

/-- Lines 68-71: put the provider's prices pairs in a frame, attach the
UTC calendar date of each instant, and keep one row per date with
groupby("date", as_index=False).first(): the group keys come out sorted
ascending and first() takes the first row of each group in original
order. -/
def bucketDates (prices : List (Nat × ℚ)) : List Nat :=
  ((prices.map sampleDate).dedup).insertionSort (· ≤ ·)

def bucketDaily (prices : List (Nat × ℚ)) : List PricePoint :=
  (bucketDates prices).filterMap fun d =>
    (prices.find? fun s => sampleDate s == d).map fun s => ⟨d, s.2⟩

/-- Lines 51-60: the UTC-midnight epoch-second instant of a calendar
date, used as the from/to query parameter. -/
def midnight_ts (d : Nat) : Nat := d * 86400

/-- Lines 47-72 without the transport: ask the provider for the sample
sequence of the instant range [midnight_ts start, midnight_ts endDate]
and normalise it to one PricePoint per day.  The provider stands for the
HTTP GET of line 65: a function from the from/to query parameters to the
returned prices array. -/
def load_btc_history (provider : Nat → Nat → List (Nat × ℚ))
    (start endDate : Nat) : List PricePoint :=
  bucketDaily (provider (midnight_ts start) (midnight_ts endDate))

/-- One call through the lru_cache wrapper of line 47.  The state is the
memoised (key, value) pairs in recency order, least recently used first.
On a hit the entry moves to the most-recent end and the wrapped function
does not run; on a miss the wrapped function runs (a network call for
load_btc_history), the new pair is appended, and the least recently used
entry is dropped when the capacity is exceeded.  Returns the new state,
the value, and whether the wrapped function ran. -/
def cachedCall {K V : Type} [DecidableEq K] (f : K → V) (cap : Nat)
    (st : List (K × V)) (k : K) : List (K × V) × V × Bool :=
  match st.find? (fun e => e.1 == k) with
  | some e => (st.filter (fun e2 => !(e2.1 == k)) ++ [(k, e.2)], e.2, false)
  | none =>
      let st2 := st ++ [(k, f k)]
      (if cap < st2.length then st2.drop 1 else st2, f k, true)

/-- Run a sequence of calls through the cache from state st, collecting
the final state and the list of keys whose calls ran the wrapped
function (the network calls). -/
def runCalls {K V : Type} [DecidableEq K] (f : K → V) (cap : Nat)
    (st : List (K × V)) : List K → List (K × V) × List K
  | [] => (st, [])
  | k :: ks =>
      let c := cachedCall f cap st k
      let r := runCalls f cap c.1 ks
      (r.1, if c.2.2 then k :: r.2 else r.2)

/-- Provider status for one fetch attempt: success with the prices
array, the throttling status ("too many requests", HTTP 429), or any
other unsuccessful status. -/
inductive ProviderStatus where
  | ok (prices : List (Nat × ℚ))
  | tooManyRequests
  | otherFailure (code : Nat)
deriving DecidableEq, Repr

/-- How a fetch ends: a normalised series, retries exhausted while still
throttled, or a fatal non-retryable status. -/
inductive FetchOutcome where
  | success (series : List PricePoint)
  | exhausted
  | fatal (code : Nat)
deriving DecidableEq, Repr

/-- What a fetch run did: its outcome, how many attempts it made, and
the sleep delays it performed, in order. -/
structure FetchTrace where
  outcome : FetchOutcome
  attempts : Nat
  sleeps : List Nat
deriving DecidableEq, Repr

/-- Modelled from the spec: the rate-limit retry loop of the second,
shadowing copy of the fetch function, which is absent from src/ (the
src/ file keeps only the copy without the loop; spec sections 4.1, 5, 8
and 9 describe it).  Up to a bounded number of attempts; on a "too many
requests" status the loop sleeps the current delay, doubles it and
retries the identical request; a success returns the normalised series;
any other unsuccessful status is fatal with no retry.  The stub provider
maps the attempt index to the status that attempt receives. -/
def retryLoop (provider : Nat → ProviderStatus) :
    Nat → Nat → Nat → List Nat → FetchTrace
  | 0, attempt, _, sleeps => ⟨.exhausted, attempt, sleeps⟩
  | left + 1, attempt, delay, sleeps =>
      match provider attempt with
      | .ok prices => ⟨.success (bucketDaily prices), attempt + 1, sleeps⟩
      | .tooManyRequests =>
          retryLoop provider left (attempt + 1) (delay * 2) (sleeps ++ [delay])
      | .otherFailure c => ⟨.fatal c, attempt + 1, sleeps⟩

/-- Modelled from the spec: the whole retrying fetch, 5 attempts total,
delay starting at 2 time units. -/
def fetchWithRetry (provider : Nat → ProviderStatus) : FetchTrace :=
  retryLoop provider 5 0 2 []

/-- Epoch day numbers of the dates of the end-to-end example
(spec section 8): 2025-06-29, 2025-06-30 and 2025-07-01. -/
def june29 : Nat := 20268

def june30 : Nat := 20269

def july1 : Nat := 20270

/-- The three-day example series {2025-06-29: 100, 2025-06-30: 200,
2025-07-01: 300}. -/
def exampleSeries : Nat → Option ℚ := fun d =>
  if d = june29 then some 100
  else if d = june30 then some 200
  else if d = july1 then some 300
  else none

/-- The example request (start 2025-06-29, valuation 2025-07-01,
daily 10 USD). -/
def exampleRequest : DCARequest := ⟨june29, july1, 10⟩

/-- A series whose only price (day 0) lies outside the range [5, 7] of
noRangeRequest: no calendar day of the request has a price. -/
def noRangeSeries : Nat → Option ℚ := fun d => if d = 0 then some 50 else none

/-- A request whose range [5, 7] misses every priced day of
noRangeSeries. -/
def noRangeRequest : DCARequest := ⟨5, 7, 10⟩

/-- A falling three-day series: 300 on day 0, 200 on day 1, 100 on
day 2. -/
def fallingSeries : Nat → Option ℚ := fun d =>
  if d = 0 then some 300
  else if d = 1 then some 200
  else if d = 2 then some 100
  else none

/-- The request over the whole fallingSeries range, valuing on day 2. -/
def fallingRequest : DCARequest := ⟨0, 2, 10⟩

/-- A provider stub that ignores the requested instant range and returns
one sample at instant 0. -/
def badProvider : Nat → Nat → List (Nat × ℚ) := fun _ _ => [(0, 5)]

/-- A provider stub that honours the requested instant range: one sample
at the from-instant (in milliseconds). -/
def goodProvider : Nat → Nat → List (Nat × ℚ) := fun f _ => [(f * 1000, 5)]

/-- A sorted provider sample sequence with two same-day samples (instants
0 and 100 of day 0) and one sample of day 1. -/
def exampleSamples : List (Nat × ℚ) := [(0, 5), (100, 6), (86400000, 7)]

/-- A provider stub that is throttled on the first four attempts and
succeeds on the fifth. -/
def throttleThenOk : Nat → ProviderStatus := fun i =>
  if i < 4 then .tooManyRequests else .ok []

/-- A provider stub that is throttled on every attempt. -/
def alwaysThrottle : Nat → ProviderStatus := fun _ => .tooManyRequests

/-- A provider stub that fails with a non-throttling status (500) at
once. -/
def fatalProvider : Nat → ProviderStatus := fun _ => .otherFailure 500

/-! Helper lemmas about the calendar and the ledger. -/

theorem mem_buy_dates {s v d : Nat} :
    d ∈ buy_dates s v ↔ s ≤ d ∧ d ≤ v := by
  unfold buy_dates
  rw [List.mem_range'_1]
  omega

theorem daily_df_map_date (series : Nat → Option ℚ) (s v : Nat) (usd : ℚ) :
    (daily_df series s v usd).map DCALedgerEntry.date
      = (buy_dates s v).filter fun d => (series d).isSome := by
  unfold daily_df
  generalize buy_dates s v = l
  induction l with
  | nil => rfl
  | cons d t ih =>
      cases h : series d <;>
        simp [h, ih, List.filterMap_cons, List.filter_cons]

theorem mem_daily_df {series : Nat → Option ℚ} {s v : Nat} {usd : ℚ}
    {e : DCALedgerEntry} (he : e ∈ daily_df series s v usd) :
    e.date ∈ buy_dates s v ∧ series e.date = some e.price
      ∧ e.usd_spent = usd ∧ e.btc_bought = usd / e.price := by
  unfold daily_df at he
  rw [List.mem_filterMap] at he
  obtain ⟨d, hd, heq⟩ := he
  cases h : series d with
  | none => rw [h] at heq; simp at heq
  | some p =>
      simp only [h, Option.map_some', Option.some.injEq] at heq
      subst heq
      exact ⟨hd, by simp [h], rfl, rfl⟩

theorem total_usd_daily_df (series : Nat → Option ℚ) (s v : Nat) (usd : ℚ) :
    total_usd_invested (daily_df series s v usd)
      = usd * (daily_df series s v usd).length := by
  have aux : ∀ L : List DCALedgerEntry, (∀ e ∈ L, e.usd_spent = usd) →
      total_usd_invested L = usd * L.length := by
    intro L
    induction L with
    | nil => simp [total_usd_invested]
    | cons e t ih =>
        intro h
        have he := h e (List.mem_cons_self e t)
        have ht := ih fun x hx => h x (List.mem_cons_of_mem e hx)
        simp only [total_usd_invested, List.map_cons, List.sum_cons,
          List.length_cons] at ht ⊢
        rw [he, ht]
        push_cast
        ring
  exact aux _ fun e he => (mem_daily_df he).2.2.1

theorem simulate_error_of_valuation_none (series : Nat → Option ℚ)
    (req : DCARequest) (h : series req.valuation_date = none) :
    simulate series req = .error .missingValuationPrice := by
  simp [simulate, h]

theorem simulate_of_some (series : Nat → Option ℚ) (req : DCARequest)
    (vp : ℚ) (h : series req.valuation_date = some vp) :
    simulate series req =
      .ok ⟨daily_df series req.start_date req.valuation_date req.dca_usd,
        total_btc
          (daily_df series req.start_date req.valuation_date req.dca_usd),
        total_usd_invested
          (daily_df series req.start_date req.valuation_date req.dca_usd),
        vp,
        total_btc
          (daily_df series req.start_date req.valuation_date req.dca_usd)
          * vp,
        (total_btc
            (daily_df series req.start_date req.valuation_date req.dca_usd)
            * vp /
          total_usd_invested
            (daily_df series req.start_date req.valuation_date req.dca_usd)
          - 1) * 100⟩ := by
  simp [simulate, h]

/-- Evaluation of the daily frame of the end-to-end example. -/
theorem example_daily_df_eq :
    daily_df exampleSeries june29 july1 10 =
      [⟨june29, 100, 10, 1/10⟩, ⟨june30, 200, 10, 1/20⟩,
       ⟨july1, 300, 10, 1/30⟩] := by
  norm_num [daily_df, buy_dates, exampleSeries, june29, june30, july1,
    List.range', List.filterMap_cons, Option.map, DCALedgerEntry.mk.injEq]

/-- Evaluation of the whole end-to-end example. -/
theorem example_simulate_eq :
    simulate exampleSeries exampleRequest =
      .ok ⟨[⟨june29, 100, 10, 1/10⟩, ⟨june30, 200, 10, 1/20⟩,
            ⟨july1, 300, 10, 1/30⟩], 11/60, 30, 300, 55, 250/3⟩ := by
  norm_num [simulate, daily_df, buy_dates, total_btc, total_usd_invested,
    exampleSeries, exampleRequest, june29, june30, july1, List.range',
    List.filterMap_cons, Option.map, DCALedgerEntry.mk.injEq]

/-! The claims about the simulation step. -/

/-- Claim C1: for every price series and every request with positive daily
amount, the calendar enumeration covers exactly the dates from start to
valuation inclusive, the ledger has exactly one entry per present date (an
absent date is skipped entirely), and the total invested equals the daily
amount times the number of ledger entries. -/
theorem dca_enumeration_and_conservation (series : Nat → Option ℚ)
    (start_date valuation_date d : Nat) (dca_usd : ℚ) (h : 0 < dca_usd) :
    (d ∈ buy_dates start_date valuation_date ↔
      start_date ≤ d ∧ d ≤ valuation_date)
    ∧ (daily_df series start_date valuation_date dca_usd).map
        DCALedgerEntry.date
      = (buy_dates start_date valuation_date).filter
          (fun x => (series x).isSome)
    ∧ total_usd_invested (daily_df series start_date valuation_date dca_usd)
      = dca_usd *
          (daily_df series start_date valuation_date dca_usd).length :=
  ⟨mem_buy_dates, daily_df_map_date series start_date valuation_date dca_usd,
    total_usd_daily_df series start_date valuation_date dca_usd⟩

theorem dca_enumeration_and_conservation_witness :
    0 < (10 : ℚ)
    ∧ ((june30 ∈ buy_dates june29 july1 ↔ june29 ≤ june30 ∧ june30 ≤ july1)
      ∧ (daily_df exampleSeries june29 july1 10).map DCALedgerEntry.date
        = (buy_dates june29 july1).filter (fun x => (exampleSeries x).isSome)
      ∧ total_usd_invested (daily_df exampleSeries june29 july1 10)
        = 10 * (daily_df exampleSeries june29 july1 10).length) :=
  ⟨by norm_num,
   dca_enumeration_and_conservation exampleSeries june29 july1 june30 10
     (by norm_num)⟩

/-- Claim C3: a series lacking a price at the valuation date makes the
simulation fail with the missing-valuation-price error, never a crash of
another kind and never a silently wrong value. -/
theorem simulate_missing_valuation (series : Nat → Option ℚ)
    (req : DCARequest) (h : series req.valuation_date = none) :
    simulate series req = .error .missingValuationPrice :=
  simulate_error_of_valuation_none series req h

theorem simulate_missing_valuation_witness :
    (fun _ : Nat => (none : Option ℚ)) exampleRequest.valuation_date = none
    ∧ simulate (fun _ => none) exampleRequest
      = .error .missingValuationPrice :=
  ⟨rfl, simulate_missing_valuation (fun _ => none) exampleRequest rfl⟩

/-- Claim C4: the end-to-end example: three days priced 100, 200, 300 with
10 USD a day give the stated ledger, 11/60 BTC total, 30 USD invested,
55 USD of value and a 250/3 percent return. -/
theorem simulate_end_to_end_example :
    simulate exampleSeries exampleRequest =
      .ok ⟨[⟨june29, 100, 10, 1/10⟩, ⟨june30, 200, 10, 1/20⟩,
            ⟨july1, 300, 10, 1/30⟩], 11/60, 30, 300, 55, 250/3⟩ :=
  example_simulate_eq

/-- Claim C7 counterexample: with a valid request range [5, 7] and a series
whose only priced day (0) misses the range, the total invested is 0, yet
the simulation fails with the missing-valuation-price condition (the
valuation lookup of line 94 fails first), not with the division-by-zero
class condition the claim names. -/
theorem no_present_days_fails_as_missing_valuation :
    total_usd_invested (daily_df noRangeSeries 5 7 10) = 0
    ∧ simulate noRangeSeries noRangeRequest = .error .missingValuationPrice
    ∧ simulate noRangeSeries noRangeRequest ≠ .error .divisionByZero := by
  refine ⟨?_, ?_, ?_⟩ <;>
    norm_num [simulate, total_usd_invested, daily_df, buy_dates,
      noRangeSeries, noRangeRequest, List.range', List.filterMap_cons] <;>
    decide

/-- Claim C7 (amended): when no calendar day of the requested range has a
price in the series, the simulation fails, but with the
missing-valuation-price condition: a series with no present day in range
in particular lacks the valuation-date price, and that lookup fails before
the division is reached. -/
theorem simulate_no_present_days (series : Nat → Option ℚ)
    (req : DCARequest) (hle : req.start_date ≤ req.valuation_date)
    (habsent : ∀ d, req.start_date ≤ d → d ≤ req.valuation_date →
      series d = none) :
    simulate series req = .error .missingValuationPrice :=
  simulate_error_of_valuation_none series req
    (habsent req.valuation_date hle le_rfl)

theorem simulate_no_present_days_witness :
    (5 : Nat) ≤ 7
    ∧ simulate noRangeSeries noRangeRequest
      = .error .missingValuationPrice :=
  ⟨by norm_num,
   simulate_no_present_days noRangeSeries noRangeRequest
     (by norm_num [noRangeRequest])
     fun d h1 _ => by
       have h5 : (5 : Nat) ≤ d := h1
       have hd : d ≠ 0 := by omega
       simp [noRangeSeries, hd]⟩

/-- Claim C10: when the series has a price at the valuation date and the
request is valid, the valuation date itself yields a ledger entry, the
total invested is at least the daily amount and in particular nonzero, and
the simulation succeeds: the empty-investment division cannot happen. -/
theorem valuation_entry_precludes_zero_investment
    (series : Nat → Option ℚ) (req : DCARequest) (vp : ℚ)
    (hval : series req.valuation_date = some vp)
    (hsv : req.start_date < req.valuation_date) (husd : 0 < req.dca_usd) :
    req.valuation_date ∈
      (daily_df series req.start_date req.valuation_date req.dca_usd).map
        DCALedgerEntry.date
    ∧ req.dca_usd ≤ total_usd_invested
        (daily_df series req.start_date req.valuation_date req.dca_usd)
    ∧ total_usd_invested
        (daily_df series req.start_date req.valuation_date req.dca_usd) ≠ 0
    ∧ ∃ r, simulate series req = .ok r := by
  have hmem : req.valuation_date ∈
      (daily_df series req.start_date req.valuation_date req.dca_usd).map
        DCALedgerEntry.date := by
    rw [daily_df_map_date, List.mem_filter]
    exact ⟨mem_buy_dates.2 ⟨le_of_lt hsv, le_rfl⟩, by simp [hval]⟩
  have hne : daily_df series req.start_date req.valuation_date req.dca_usd
      ≠ [] := by
    intro hnil
    rw [hnil] at hmem
    simp at hmem
  have hlen : 1 ≤ ((daily_df series req.start_date req.valuation_date
      req.dca_usd).length : ℚ) := by
    have := List.length_pos.2 hne
    exact_mod_cast this
  have htu : req.dca_usd ≤ total_usd_invested
      (daily_df series req.start_date req.valuation_date req.dca_usd) := by
    rw [total_usd_daily_df]
    exact le_mul_of_one_le_right husd.le hlen
  refine ⟨hmem, htu, ?_, ?_⟩
  · exact ne_of_gt (lt_of_lt_of_le husd htu)
  · exact ⟨_, simulate_of_some series req vp hval⟩

theorem valuation_entry_precludes_zero_investment_witness :
    exampleSeries exampleRequest.valuation_date = some 300
    ∧ exampleRequest.start_date < exampleRequest.valuation_date
    ∧ 0 < exampleRequest.dca_usd
    ∧ july1 ∈ (daily_df exampleSeries june29 july1 10).map
        DCALedgerEntry.date
    ∧ (10 : ℚ) ≤ total_usd_invested (daily_df exampleSeries june29 july1 10) :=
  ⟨by norm_num [exampleSeries, exampleRequest, june29, june30, july1],
   by norm_num [exampleRequest, june29, july1],
   by norm_num [exampleRequest],
   (valuation_entry_precludes_zero_investment exampleSeries exampleRequest
      300
      (by norm_num [exampleSeries, exampleRequest, june29, june30, july1])
      (by norm_num [exampleRequest, june29, july1])
      (by norm_num [exampleRequest])).1,
   (valuation_entry_precludes_zero_investment exampleSeries exampleRequest
      300
      (by norm_num [exampleSeries, exampleRequest, june29, june30, july1])
      (by norm_num [exampleRequest, june29, july1])
      (by norm_num [exampleRequest])).2.1⟩

/-! Helper lemmas for the sign of the return. -/

theorem falling_daily_df_eq :
    daily_df fallingSeries 0 2 10 =
      [⟨0, 300, 10, 1/30⟩, ⟨1, 200, 10, 1/20⟩, ⟨2, 100, 10, 1/10⟩] := by
  norm_num [daily_df, buy_dates, fallingSeries, List.range',
    List.filterMap_cons, Option.map, DCALedgerEntry.mk.injEq]

theorem falling_simulate_eq :
    simulate fallingSeries fallingRequest =
      .ok ⟨[⟨0, 300, 10, 1/30⟩, ⟨1, 200, 10, 1/20⟩, ⟨2, 100, 10, 1/10⟩],
        11/60, 30, 100, 55/3, -350/9⟩ := by
  norm_num [simulate, daily_df, buy_dates, total_btc, total_usd_invested,
    fallingSeries, fallingRequest, List.range', List.filterMap_cons,
    Option.map, DCALedgerEntry.mk.injEq]

theorem usd_mul_len_le_btc_mul (usd vp : ℚ) (husd : 0 < usd) :
    ∀ L : List DCALedgerEntry,
      (∀ e ∈ L, 0 < e.price ∧ e.price ≤ vp ∧ e.btc_bought = usd / e.price) →
      usd * L.length ≤ total_btc L * vp
  | [], _ => by simp [total_btc]
  | e :: t, h => by
      obtain ⟨hp, hpv, hb⟩ := h e (List.mem_cons_self e t)
      have ht := usd_mul_len_le_btc_mul usd vp husd t
        fun x hx => h x (List.mem_cons_of_mem e hx)
      have hterm : usd ≤ usd / e.price * vp := by
        rw [div_mul_eq_mul_div, le_div_iff₀ hp]
        exact mul_le_mul_of_nonneg_left hpv husd.le
      have hexp : total_btc (e :: t) * vp
          = usd / e.price * vp + total_btc t * vp := by
        simp only [total_btc, List.map_cons, List.sum_cons, hb]
        ring
      simp only [List.length_cons]
      push_cast
      linarith

theorem btc_mul_le_usd_mul_len (usd vp : ℚ) (husd : 0 < usd) :
    ∀ L : List DCALedgerEntry,
      (∀ e ∈ L, 0 < e.price ∧ vp ≤ e.price ∧ e.btc_bought = usd / e.price) →
      total_btc L * vp ≤ usd * L.length
  | [], _ => by simp [total_btc]
  | e :: t, h => by
      obtain ⟨hp, hpv, hb⟩ := h e (List.mem_cons_self e t)
      have ht := btc_mul_le_usd_mul_len usd vp husd t
        fun x hx => h x (List.mem_cons_of_mem e hx)
      have hterm : usd / e.price * vp ≤ usd := by
        rw [div_mul_eq_mul_div, div_le_iff₀ hp]
        exact mul_le_mul_of_nonneg_left hpv husd.le
      have hexp : total_btc (e :: t) * vp
          = usd / e.price * vp + total_btc t * vp := by
        simp only [total_btc, List.map_cons, List.sum_cons, hb]
        ring
      simp only [List.length_cons]
      push_cast
      linarith

theorem usd_mul_len_lt_btc_mul (usd vp : ℚ) (husd : 0 < usd) :
    ∀ L : List DCALedgerEntry,
      (∀ e ∈ L, 0 < e.price ∧ e.price ≤ vp ∧ e.btc_bought = usd / e.price) →
      (∃ e ∈ L, e.price < vp) →
      usd * L.length < total_btc L * vp
  | [], _, hex => by simp at hex
  | e :: t, h, hex => by
      obtain ⟨hp, hpv, hb⟩ := h e (List.mem_cons_self e t)
      have hexp : total_btc (e :: t) * vp
          = usd / e.price * vp + total_btc t * vp := by
        simp only [total_btc, List.map_cons, List.sum_cons, hb]
        ring
      obtain ⟨w, hw, hwlt⟩ := hex
      rcases List.mem_cons.1 hw with hwe | hwt
      · have hterm : usd < usd / e.price * vp := by
          rw [div_mul_eq_mul_div, lt_div_iff₀ hp]
          exact mul_lt_mul_of_pos_left (hwe ▸ hwlt) husd
        have ht := usd_mul_len_le_btc_mul usd vp husd t
          fun x hx => h x (List.mem_cons_of_mem e hx)
        simp only [List.length_cons]
        push_cast
        linarith
      · have hterm : usd ≤ usd / e.price * vp := by
          rw [div_mul_eq_mul_div, le_div_iff₀ hp]
          exact mul_le_mul_of_nonneg_left hpv husd.le
        have ht := usd_mul_len_lt_btc_mul usd vp husd t
          (fun x hx => h x (List.mem_cons_of_mem e hx)) ⟨w, hwt, hwlt⟩
        simp only [List.length_cons]
        push_cast
        linarith

theorem btc_mul_lt_usd_mul_len (usd vp : ℚ) (husd : 0 < usd) :
    ∀ L : List DCALedgerEntry,
      (∀ e ∈ L, 0 < e.price ∧ vp ≤ e.price ∧ e.btc_bought = usd / e.price) →
      (∃ e ∈ L, vp < e.price) →
      total_btc L * vp < usd * L.length
  | [], _, hex => by simp at hex
  | e :: t, h, hex => by
      obtain ⟨hp, hpv, hb⟩ := h e (List.mem_cons_self e t)
      have hexp : total_btc (e :: t) * vp
          = usd / e.price * vp + total_btc t * vp := by
        simp only [total_btc, List.map_cons, List.sum_cons, hb]
        ring
      obtain ⟨w, hw, hwlt⟩ := hex
      rcases List.mem_cons.1 hw with hwe | hwt
      · have hterm : usd / e.price * vp < usd := by
          rw [div_mul_eq_mul_div, div_lt_iff₀ hp]
          exact mul_lt_mul_of_pos_left (hwe ▸ hwlt) husd
        have ht := btc_mul_le_usd_mul_len usd vp husd t
          fun x hx => h x (List.mem_cons_of_mem e hx)
        simp only [List.length_cons]
        push_cast
        linarith
      · have hterm : usd / e.price * vp ≤ usd := by
          rw [div_mul_eq_mul_div, div_le_iff₀ hp]
          exact mul_le_mul_of_nonneg_left hpv husd.le
        have ht := btc_mul_lt_usd_mul_len usd vp husd t
          (fun x hx => h x (List.mem_cons_of_mem e hx)) ⟨w, hwt, hwlt⟩
        simp only [List.length_cons]
        push_cast
        linarith

/-- Claim C9 counterexample: the valuation price (300 in the end-to-end
example) is itself one of the ledger purchase prices, since the valuation
day is bought too, so it is never strictly greater, nor strictly less,
than every purchase price: both guards of the claim are unsatisfiable and
the claim as stated is vacuous. -/
theorem return_sign_guards_unsatisfiable :
    (daily_df exampleSeries june29 july1 10).map DCALedgerEntry.price
      = [100, 200, 300]
    ∧ exampleSeries july1 = some 300
    ∧ ¬ ((300 : ℚ) < 300) := by
  refine ⟨?_, ?_, by norm_num⟩
  · rw [example_daily_df_eq]
    rfl
  · rfl

/-- Claim C9 (amended): with the strict comparison taken over the purchase
prices of the days before the valuation date (the valuation-date purchase
itself always has exactly the valuation price), and at least one such
earlier purchase present: if the valuation price strictly exceeds every
earlier purchase price the return is positive, and if it is strictly below
every earlier purchase price the return is negative. -/
theorem return_sign (series : Nat → Option ℚ) (s v : Nat) (usd vp : ℚ)
    (r : DCAResult) (hsv : s < v) (husd : 0 < usd)
    (hpos : ∀ d p, series d = some p → 0 < p)
    (hval : series v = some vp)
    (hrun : simulate series ⟨s, v, usd⟩ = .ok r)
    (hbefore : ∃ e ∈ daily_df series s v usd, e.date < v) :
    ((∀ e ∈ daily_df series s v usd, e.date < v → e.price < vp) →
        0 < r.return_pct)
    ∧ ((∀ e ∈ daily_df series s v usd, e.date < v → vp < e.price) →
        r.return_pct < 0) := by
  have hrun2 := simulate_of_some series ⟨s, v, usd⟩ vp hval
  rw [hrun] at hrun2
  have hr := Except.ok.inj hrun2
  have hprops : ∀ e ∈ daily_df series s v usd,
      0 < e.price ∧ e.btc_bought = usd / e.price ∧ e.date ≤ v ∧
        series e.date = some e.price := by
    intro e he
    obtain ⟨hdmem, hse, _, hbb⟩ := mem_daily_df he
    exact ⟨hpos _ _ hse, hbb, (mem_buy_dates.1 hdmem).2, hse⟩
  have hlenpos : 0 < ((daily_df series s v usd).length : ℚ) := by
    obtain ⟨w, hw, _⟩ := hbefore
    have h0 : 0 < (daily_df series s v usd).length :=
      List.length_pos.2 (List.ne_nil_of_mem hw)
    exact_mod_cast h0
  have htu_eq : total_usd_invested (daily_df series s v usd)
      = usd * (daily_df series s v usd).length :=
    total_usd_daily_df series s v usd
  have htupos : 0 < total_usd_invested (daily_df series s v usd) := by
    rw [htu_eq]
    exact mul_pos husd hlenpos
  subst hr
  constructor
  · intro hup
    have hle : ∀ e ∈ daily_df series s v usd,
        0 < e.price ∧ e.price ≤ vp ∧ e.btc_bought = usd / e.price := by
      intro e he
      obtain ⟨hp, hbb, hdv, hse⟩ := hprops e he
      rcases lt_or_eq_of_le hdv with hlt | heq
      · exact ⟨hp, (hup e he hlt).le, hbb⟩
      · have hsv2 : series v = some e.price := heq ▸ hse
        rw [hval] at hsv2
        exact ⟨hp, (Option.some.inj hsv2).ge, hbb⟩
    have hexlt : ∃ e ∈ daily_df series s v usd, e.price < vp := by
      obtain ⟨w, hw, hwd⟩ := hbefore
      exact ⟨w, hw, hup w hw hwd⟩
    have hmain := usd_mul_len_lt_btc_mul usd vp husd
      (daily_df series s v usd) hle hexlt
    have hcv : total_usd_invested (daily_df series s v usd)
        < total_btc (daily_df series s v usd) * vp := by
      rw [htu_eq]
      exact hmain
    have hdiv : 1 < total_btc (daily_df series s v usd) * vp /
        total_usd_invested (daily_df series s v usd) :=
      (one_lt_div htupos).2 hcv
    show 0 < (total_btc (daily_df series s v usd) * vp /
        total_usd_invested (daily_df series s v usd) - 1) * 100
    linarith
  · intro hdown
    have hge : ∀ e ∈ daily_df series s v usd,
        0 < e.price ∧ vp ≤ e.price ∧ e.btc_bought = usd / e.price := by
      intro e he
      obtain ⟨hp, hbb, hdv, hse⟩ := hprops e he
      rcases lt_or_eq_of_le hdv with hlt | heq
      · exact ⟨hp, (hdown e he hlt).le, hbb⟩
      · have hsv2 : series v = some e.price := heq ▸ hse
        rw [hval] at hsv2
        exact ⟨hp, (Option.some.inj hsv2).le, hbb⟩
    have hexgt : ∃ e ∈ daily_df series s v usd, vp < e.price := by
      obtain ⟨w, hw, hwd⟩ := hbefore
      exact ⟨w, hw, hdown w hw hwd⟩
    have hmain := btc_mul_lt_usd_mul_len usd vp husd
      (daily_df series s v usd) hge hexgt
    have hcv : total_btc (daily_df series s v usd) * vp
        < total_usd_invested (daily_df series s v usd) := by
      rw [htu_eq]
      exact hmain
    have hdiv : total_btc (daily_df series s v usd) * vp /
        total_usd_invested (daily_df series s v usd) < 1 :=
      (div_lt_one htupos).2 hcv
    show (total_btc (daily_df series s v usd) * vp /
        total_usd_invested (daily_df series s v usd) - 1) * 100 < 0
    linarith

theorem return_sign_witness :
    0 < (DCAResult.return_pct
        ⟨[⟨june29, 100, 10, 1/10⟩, ⟨june30, 200, 10, 1/20⟩,
          ⟨july1, 300, 10, 1/30⟩], 11/60, 30, 300, 55, 250/3⟩)
    ∧ (DCAResult.return_pct
        ⟨[⟨0, 300, 10, 1/30⟩, ⟨1, 200, 10, 1/20⟩, ⟨2, 100, 10, 1/10⟩],
          11/60, 30, 100, 55/3, -350/9⟩) < 0 :=
  ⟨(return_sign exampleSeries june29 july1 10 300 _
      (by norm_num [june29, july1]) (by norm_num)
      (by
        intro d p hdp
        simp only [exampleSeries] at hdp
        split_ifs at hdp <;>
          first
            | (rw [Option.some.injEq] at hdp; rw [← hdp]; norm_num)
            | exact absurd hdp (by simp))
      (by rfl) example_simulate_eq
      (by
        rw [example_daily_df_eq]
        exact ⟨⟨june29, 100, 10, 1/10⟩, by simp,
          by norm_num [june29, july1]⟩)).1
    (by
      intro e he hd
      rw [example_daily_df_eq] at he
      simp only [List.mem_cons, List.mem_singleton] at he
      rcases he with h | h | h | h <;> first
        | subst h; norm_num [june29, june30, july1] at hd ⊢
        | simp_all),
   (return_sign fallingSeries 0 2 10 100 _
      (by norm_num) (by norm_num)
      (by
        intro d p hdp
        simp only [fallingSeries] at hdp
        split_ifs at hdp <;>
          first
            | (rw [Option.some.injEq] at hdp; rw [← hdp]; norm_num)
            | exact absurd hdp (by simp))
      (by rfl) falling_simulate_eq
      (by
        rw [falling_daily_df_eq]
        exact ⟨⟨0, 300, 10, 1/30⟩, by simp, by norm_num⟩)).2
    (by
      intro e he hd
      rw [falling_daily_df_eq] at he
      simp only [List.mem_cons, List.mem_singleton] at he
      rcases he with h | h | h | h <;> first
        | subst h; norm_num at hd ⊢
        | simp_all)⟩



theorem retryLoop_ok (provider : Nat → ProviderStatus)
    (n attempt delay : Nat) (sleeps : List Nat) (prices : List (Nat × ℚ))
    (h : provider attempt = .ok prices) :
    retryLoop provider (n + 1) attempt delay sleeps
      = ⟨.success (bucketDaily prices), attempt + 1, sleeps⟩ := by
  show (match provider attempt with
    | .ok prices => FetchTrace.mk (.success (bucketDaily prices)) (attempt + 1) sleeps
    | .tooManyRequests =>
        retryLoop provider n (attempt + 1) (delay * 2) (sleeps ++ [delay])
    | .otherFailure c => FetchTrace.mk (.fatal c) (attempt + 1) sleeps) = _
  rw [h]

theorem retryLoop_throttle (provider : Nat → ProviderStatus)
    (n attempt delay : Nat) (sleeps : List Nat)
    (h : provider attempt = .tooManyRequests) :
    retryLoop provider (n + 1) attempt delay sleeps
      = retryLoop provider n (attempt + 1) (delay * 2) (sleeps ++ [delay]) := by
  show (match provider attempt with
    | .ok prices => FetchTrace.mk (.success (bucketDaily prices)) (attempt + 1) sleeps
    | .tooManyRequests =>
        retryLoop provider n (attempt + 1) (delay * 2) (sleeps ++ [delay])
    | .otherFailure c => FetchTrace.mk (.fatal c) (attempt + 1) sleeps) = _
  rw [h]

theorem retryLoop_fatal (provider : Nat → ProviderStatus)
    (n attempt delay : Nat) (sleeps : List Nat) (c : Nat)
    (h : provider attempt = .otherFailure c) :
    retryLoop provider (n + 1) attempt delay sleeps
      = ⟨.fatal c, attempt + 1, sleeps⟩ := by
  show (match provider attempt with
    | .ok prices => FetchTrace.mk (.success (bucketDaily prices)) (attempt + 1) sleeps
    | .tooManyRequests =>
        retryLoop provider n (attempt + 1) (delay * 2) (sleeps ++ [delay])
    | .otherFailure c => FetchTrace.mk (.fatal c) (attempt + 1) sleeps) = _
  rw [h]

/-- Claim C2: on the throttling status the fetch retries the identical
request with delays doubling from 2 time units for up to 5 attempts in
total: a provider throttled on the first four attempts and succeeding on
the fifth yields success after sleeps 2, 4, 8, 16; a provider that never
succeeds leaves the fetch failed after exactly 5 attempts; and any other
unsuccessful status is fatal on the spot, with no retry and no sleep. -/
theorem retry_backoff (provider : Nat → ProviderStatus) :
    (∀ prices : List (Nat × ℚ),
      (∀ i, i < 4 → provider i = .tooManyRequests) → provider 4 = .ok prices →
      fetchWithRetry provider
        = ⟨.success (bucketDaily prices), 5, [2, 4, 8, 16]⟩)
    ∧ ((∀ i, provider i = .tooManyRequests) →
      fetchWithRetry provider = ⟨.exhausted, 5, [2, 4, 8, 16, 32]⟩)
    ∧ (∀ c : Nat, provider 0 = .otherFailure c →
      fetchWithRetry provider = ⟨.fatal c, 1, []⟩) := by
  refine ⟨?_, ?_, ?_⟩
  · intro prices h4 hok
    show retryLoop provider (4 + 1) 0 2 [] = _
    rw [retryLoop_throttle provider _ _ _ _ (h4 0 (by norm_num))]
    rw [retryLoop_throttle provider _ _ _ _ (h4 1 (by norm_num))]
    rw [retryLoop_throttle provider _ _ _ _ (h4 2 (by norm_num))]
    rw [retryLoop_throttle provider _ _ _ _ (h4 3 (by norm_num))]
    rw [retryLoop_ok provider _ _ _ _ _ hok]
    rfl
  · intro hall
    show retryLoop provider (4 + 1) 0 2 [] = _
    rw [retryLoop_throttle provider _ _ _ _ (hall 0)]
    rw [retryLoop_throttle provider _ _ _ _ (hall 1)]
    rw [retryLoop_throttle provider _ _ _ _ (hall 2)]
    rw [retryLoop_throttle provider _ _ _ _ (hall 3)]
    show retryLoop provider (0 + 1) 4 32 [2, 4, 8, 16] = _
    rw [retryLoop_throttle provider _ _ _ _ (hall 4)]
    rfl
  · intro c hc
    show retryLoop provider (4 + 1) 0 2 [] = _
    rw [retryLoop_fatal provider _ _ _ _ _ hc]

theorem retry_backoff_witness :
    fetchWithRetry throttleThenOk
      = ⟨.success (bucketDaily []), 5, [2, 4, 8, 16]⟩
    ∧ fetchWithRetry alwaysThrottle = ⟨.exhausted, 5, [2, 4, 8, 16, 32]⟩
    ∧ fetchWithRetry fatalProvider = ⟨.fatal 500, 1, []⟩ :=
  ⟨(retry_backoff throttleThenOk).1 []
      (fun i hi => by simp [throttleThenOk, hi]) (by decide),
   (retry_backoff alwaysThrottle).2.1 (fun i => rfl),
   (retry_backoff fatalProvider).2.2 500 rfl⟩




/-! Helper lemmas about the day bucketing of load_btc_history. -/

theorem bucketDates_sorted (prices : List (Nat × ℚ)) :
    List.Sorted (· ≤ ·) (bucketDates prices) :=
  List.sorted_insertionSort _ _

theorem bucketDates_nodup (prices : List (Nat × ℚ)) :
    (bucketDates prices).Nodup :=
  ((List.perm_insertionSort _ _).nodup_iff).2 (List.nodup_dedup _)

theorem mem_bucketDates {prices : List (Nat × ℚ)} {d : Nat} :
    d ∈ bucketDates prices ↔ d ∈ prices.map sampleDate := by
  unfold bucketDates
  rw [(List.perm_insertionSort _ _).mem_iff, List.mem_dedup]

theorem bucketDates_pairwise_lt (prices : List (Nat × ℚ)) :
    List.Pairwise (· < ·) (bucketDates prices) :=
  (bucketDates_sorted prices).lt_of_le (bucketDates_nodup prices)

theorem bucketDaily_map_date (prices : List (Nat × ℚ)) :
    (bucketDaily prices).map PricePoint.date
      = (bucketDates prices).filter
          (fun d => (prices.find? fun s => sampleDate s == d).isSome) := by
  unfold bucketDaily
  generalize bucketDates prices = l
  induction l with
  | nil => rfl
  | cons d t ih =>
      cases h : prices.find? fun s => sampleDate s == d <;>
        simp [h, ih, List.filterMap_cons, List.filter_cons]

theorem find?_earliest (d : Nat) (s : Nat × ℚ) :
    ∀ prices : List (Nat × ℚ),
      List.Sorted (fun a b => a.1 ≤ b.1) prices →
      prices.find? (fun x => sampleDate x == d) = some s →
      ∀ t ∈ prices, sampleDate t = d → s.1 ≤ t.1
  | [], _, hfind => by simp at hfind
  | a :: l, hsorted, hfind => by
      intro t ht htd
      rw [List.find?_cons] at hfind
      by_cases ha : sampleDate a = d
      · rw [beq_iff_eq.2 ha] at hfind
        simp only [Option.some.injEq] at hfind
        subst hfind
        rcases List.mem_cons.1 ht with rfl | htl
        · exact le_rfl
        · exact (List.sorted_cons.1 hsorted).1 t htl
      · rw [beq_eq_false_iff_ne.2 ha] at hfind
        rcases List.mem_cons.1 ht with rfl | htl
        · exact absurd htd ha
        · exact find?_earliest d s l (List.sorted_cons.1 hsorted).2 hfind
            t htl htd

/-- Evaluation of the bucketing on the example sample sequence: the two
samples of day 0 collapse to the earlier one (instant 0, price 5). -/
theorem bucketDaily_example_eq :
    bucketDaily exampleSamples = [⟨0, 5⟩, ⟨1, 7⟩] := by decide

/-- Claim C5: for provider samples sorted ascending by instant, the
bucketing keeps at most one PricePoint per calendar date (dates strictly
increase along the output), each kept point carries the price of an
earliest-timestamped sample of its date (later same-day samples are
discarded), and every sampled date is kept. -/
theorem bucket_unique_and_earliest (samples : List (Nat × ℚ))
    (pp : PricePoint) (s2 : Nat × ℚ)
    (hsorted : List.Sorted (fun a b => a.1 ≤ b.1) samples)
    (hpp : pp ∈ bucketDaily samples) (hs2 : s2 ∈ samples) :
    List.Pairwise (fun a b => a.date < b.date) (bucketDaily samples)
    ∧ (∃ s ∈ samples, sampleDate s = pp.date ∧ s.2 = pp.price
        ∧ ∀ t ∈ samples, sampleDate t = pp.date → s.1 ≤ t.1)
    ∧ ∃ q ∈ bucketDaily samples, q.date = sampleDate s2 := by
  refine ⟨?_, ?_, ?_⟩
  · have hd := bucketDates_pairwise_lt samples
    have hsub : ((bucketDaily samples).map PricePoint.date).Sublist
        (bucketDates samples) := by
      rw [bucketDaily_map_date]
      exact List.filter_sublist _
    exact List.pairwise_map.1 (hd.sublist hsub)
  · unfold bucketDaily at hpp
    rw [List.mem_filterMap] at hpp
    obtain ⟨d, _, heq⟩ := hpp
    cases hfind : samples.find? (fun s => sampleDate s == d) with
    | none => rw [hfind] at heq; simp at heq
    | some s =>
        rw [hfind] at heq
        simp only [Option.map_some', Option.some.injEq] at heq
        subst heq
        have hps := List.find?_some hfind
        refine ⟨s, List.mem_of_find?_eq_some hfind, beq_iff_eq.1 hps,
          rfl, ?_⟩
        intro t ht htd
        exact find?_earliest d s samples hsorted hfind t ht htd
  · have hdd : sampleDate s2 ∈ bucketDates samples :=
      mem_bucketDates.2 (List.mem_map_of_mem _ hs2)
    cases hfind : samples.find? (fun s => sampleDate s == sampleDate s2) with
    | none =>
        rw [List.find?_eq_none] at hfind
        exact absurd (beq_self_eq_true (sampleDate s2))
          (by simpa using hfind s2 hs2)
    | some s =>
        refine ⟨⟨sampleDate s2, s.2⟩, ?_, rfl⟩
        unfold bucketDaily
        rw [List.mem_filterMap]
        exact ⟨sampleDate s2, hdd, by rw [hfind]; rfl⟩

theorem bucket_unique_and_earliest_witness :
    List.Sorted (fun a b => a.1 ≤ b.1) exampleSamples
    ∧ (⟨0, 5⟩ : PricePoint) ∈ bucketDaily exampleSamples
    ∧ ((0 : Nat), (5 : ℚ)) ∈ exampleSamples
    ∧ (List.Pairwise (fun a b => a.date < b.date) (bucketDaily exampleSamples)
      ∧ (∃ s ∈ exampleSamples,
          sampleDate s = (⟨0, 5⟩ : PricePoint).date
          ∧ s.2 = (⟨0, 5⟩ : PricePoint).price
          ∧ ∀ t ∈ exampleSamples,
              sampleDate t = (⟨0, 5⟩ : PricePoint).date → s.1 ≤ t.1)
      ∧ ∃ q ∈ bucketDaily exampleSamples,
          q.date = sampleDate ((0 : Nat), (5 : ℚ))) := by
  have hs : List.Sorted (fun a b => a.1 ≤ b.1) exampleSamples := by decide
  have hp : (⟨0, 5⟩ : PricePoint) ∈ bucketDaily exampleSamples := by decide
  have hm : ((0 : Nat), (5 : ℚ)) ∈ exampleSamples := by decide
  exact ⟨hs, hp, hm,
    bucket_unique_and_earliest exampleSamples ⟨0, 5⟩ (0, 5) hs hp hm⟩

/-- Claim C6 counterexample: the code never clamps the provider samples
to the requested range; with start = end = 1 and a provider response
holding a sample at instant 0 (day 0), fetch returns a PricePoint dated
before the start of the range. -/
theorem fetch_returns_out_of_range_date :
    (1 : Nat) ≤ 1
    ∧ (⟨0, 5⟩ : PricePoint) ∈ load_btc_history badProvider 1 1
    ∧ (⟨0, 5⟩ : PricePoint).date < 1 := by decide

/-- Claim C6 (amended): whenever every sample instant of the provider
response lies inside the requested instant range (as the provider
contract specifies), every returned PricePoint is dated within
[start, end] inclusive; the code itself performs no clamping, so the
guarantee holds exactly for range-honouring responses. -/
theorem load_btc_history_in_range (provider : Nat → Nat → List (Nat × ℚ))
    (start endDate : Nat) (pp : PricePoint)
    (hresp : ∀ s ∈ provider (midnight_ts start) (midnight_ts endDate),
      midnight_ts start * 1000 ≤ s.1 ∧ s.1 ≤ midnight_ts endDate * 1000)
    (hpp : pp ∈ load_btc_history provider start endDate) :
    start ≤ pp.date ∧ pp.date ≤ endDate := by
  unfold load_btc_history at hpp
  have hd : pp.date ∈
      bucketDates (provider (midnight_ts start) (midnight_ts endDate)) := by
    have hmm : pp.date ∈ (bucketDaily
        (provider (midnight_ts start) (midnight_ts endDate))).map
          PricePoint.date :=
      List.mem_map_of_mem _ hpp
    rw [bucketDaily_map_date] at hmm
    exact List.mem_of_mem_filter hmm
  rw [mem_bucketDates] at hd
  obtain ⟨s, hs, hsd⟩ := List.mem_map.1 hd
  obtain ⟨hlo, hhi⟩ := hresp s hs
  constructor
  · rw [← hsd]
    unfold sampleDate
    rw [Nat.le_div_iff_mul_le (show 0 < msPerDay by norm_num [msPerDay])]
    calc start * msPerDay = midnight_ts start * 1000 := by
          unfold midnight_ts msPerDay
          ring
      _ ≤ s.1 := hlo
  · rw [← hsd]
    unfold sampleDate
    calc s.1 / msPerDay ≤ (endDate * msPerDay) / msPerDay := by
          apply Nat.div_le_div_right
          calc s.1 ≤ midnight_ts endDate * 1000 := hhi
            _ = endDate * msPerDay := by
                unfold midnight_ts msPerDay
                ring
      _ = endDate :=
          Nat.mul_div_cancel endDate
            (show 0 < msPerDay by norm_num [msPerDay])

theorem load_btc_history_in_range_witness :
    (⟨1, 5⟩ : PricePoint) ∈ load_btc_history goodProvider 1 1
    ∧ 1 ≤ (⟨1, 5⟩ : PricePoint).date
    ∧ (⟨1, 5⟩ : PricePoint).date ≤ 1 := by
  have hpp : (⟨1, 5⟩ : PricePoint) ∈ load_btc_history goodProvider 1 1 := by
    decide
  have h := load_btc_history_in_range goodProvider 1 1 ⟨1, 5⟩ (by decide) hpp
  exact ⟨hpp, h.1, h.2⟩


/-! Helper lemmas about the lru_cache model. -/

theorem keys_filter {K V : Type} [DecidableEq K] (st : List (K × V)) (m : K) :
    (st.filter fun e2 => !(e2.1 == m)).map Prod.fst
      = (st.map Prod.fst).filter fun x => !(x == m) := by
  induction st with
  | nil => rfl
  | cons e t ih =>
      cases hb : (e.1 == m) <;>
        simp [List.filter_cons, List.map_cons, hb, ih]

theorem find?_key_isSome {K V : Type} [DecidableEq K]
    (st : List (K × V)) (k : K) :
    (st.find? fun e => e.1 == k).isSome = true ↔ k ∈ st.map Prod.fst := by
  rw [List.find?_isSome]
  constructor
  · rintro ⟨e, he, hp⟩
    exact (beq_iff_eq.1 hp) ▸ List.mem_map_of_mem Prod.fst he
  · intro hm
    obtain ⟨e, he, hek⟩ := List.mem_map.1 hm
    exact ⟨e, he, beq_iff_eq.2 hek⟩

theorem runCalls_nil {K V : Type} [DecidableEq K] (f : K → V) (cap : Nat)
    (st : List (K × V)) : runCalls f cap st [] = (st, []) := rfl

theorem runCalls_cons {K V : Type} [DecidableEq K] (f : K → V) (cap : Nat)
    (st : List (K × V)) (k : K) (ks : List K) :
    runCalls f cap st (k :: ks)
      = ((runCalls f cap (cachedCall f cap st k).1 ks).1,
         if (cachedCall f cap st k).2.2
         then k :: (runCalls f cap (cachedCall f cap st k).1 ks).2
         else (runCalls f cap (cachedCall f cap st k).1 ks).2) := rfl

theorem runCalls_append {K V : Type} [DecidableEq K] (f : K → V) (cap : Nat) :
    ∀ (xs ys : List K) (st : List (K × V)),
      runCalls f cap st (xs ++ ys)
        = ((runCalls f cap (runCalls f cap st xs).1 ys).1,
           (runCalls f cap st xs).2
             ++ (runCalls f cap (runCalls f cap st xs).1 ys).2)
  | [], ys, st => by simp [runCalls_nil]
  | x :: xs, ys, st => by
      rw [List.cons_append, runCalls_cons, runCalls_cons,
        runCalls_append f cap xs ys (cachedCall f cap st x).1]
      cases (cachedCall f cap st x).2.2 <;> simp

theorem runCalls_no_net_for_cached {K V : Type} [DecidableEq K]
    (f : K → V) (cap : Nat) (k : K) (S : Finset K)
    (hS : S.card ≤ cap) (hkS : k ∈ S) :
    ∀ (ks : List K) (st : List (K × V)),
      (∀ m ∈ ks, m ∈ S ∧ m ≠ k) →
      (∀ e ∈ st, e.1 ∈ S) →
      (st.map Prod.fst).Nodup →
      k ∈ st.map Prod.fst →
      (∀ e ∈ (runCalls f cap st ks).1, e.1 ∈ S)
      ∧ ((runCalls f cap st ks).1.map Prod.fst).Nodup
      ∧ k ∈ (runCalls f cap st ks).1.map Prod.fst
      ∧ (runCalls f cap st ks).2.countP (fun x => decide (x = k)) = 0
  | [], st, _, hstS, hnd, hk => ⟨hstS, hnd, hk, by simp [runCalls_nil]⟩
  | m :: ks, st, hks, hstS, hnd, hk => by
      obtain ⟨hmS, hmk⟩ := hks m (List.mem_cons_self m ks)
      have hks2 : ∀ x ∈ ks, x ∈ S ∧ x ≠ k :=
        fun x hx => hks x (List.mem_cons_of_mem m hx)
      rw [runCalls_cons]
      cases hfind : st.find? fun e => e.1 == m with
      | some e =>
          have hcc : cachedCall f cap st m
              = (st.filter (fun e2 => !(e2.1 == m)) ++ [(m, e.2)],
                 e.2, false) := by
            unfold cachedCall
            rw [hfind]
          have h1 : ∀ x ∈ st.filter (fun e2 => !(e2.1 == m)) ++ [(m, e.2)],
              x.1 ∈ S := by
            intro x hx
            rcases List.mem_append.1 hx with hxf | hxm
            · exact hstS x (List.mem_of_mem_filter hxf)
            · rw [List.mem_singleton] at hxm
              rw [hxm]
              exact hmS
          have h2 : (((st.filter (fun e2 => !(e2.1 == m)) ++ [(m, e.2)]).map
              Prod.fst)).Nodup := by
            rw [List.map_append, keys_filter]
            rw [List.nodup_append]
            refine ⟨hnd.filter _, by simp, ?_⟩
            simp only [List.map_cons, List.map_nil, List.disjoint_singleton]
            intro hmem
            have hpm := (List.mem_filter.1 hmem).2
            simp at hpm
          have h3 : k ∈ (st.filter (fun e2 => !(e2.1 == m)) ++ [(m, e.2)]).map
              Prod.fst := by
            rw [List.map_append, keys_filter]
            apply List.mem_append_left
            rw [List.mem_filter]
            refine ⟨hk, ?_⟩
            have : k ≠ m := hmk.symm
            simp [this]
          have ih := runCalls_no_net_for_cached f cap k S hS hkS ks
            (st.filter (fun e2 => !(e2.1 == m)) ++ [(m, e.2)]) hks2 h1 h2 h3
          rw [hcc]
          exact ⟨ih.1, ih.2.1, ih.2.2.1, ih.2.2.2⟩
      | none =>
          have hmnot : m ∉ st.map Prod.fst := by
            intro hmem
            have hsome := (find?_key_isSome st m).2 hmem
            rw [hfind] at hsome
            simp at hsome
          have hnd2 : ((st.map Prod.fst) ++ [m]).Nodup := by
            rw [List.nodup_append, List.disjoint_singleton]
            exact ⟨hnd, List.nodup_singleton m, hmnot⟩
          have hsub : ((st.map Prod.fst) ++ [m]).toFinset ⊆ S := by
            intro x hx
            rcases List.mem_append.1 (List.mem_toFinset.1 hx) with hxl | hxr
            · obtain ⟨e2, he2, hex⟩ := List.mem_map.1 hxl
              exact hex ▸ hstS e2 he2
            · rw [List.mem_singleton] at hxr
              exact hxr ▸ hmS
          have hlen : st.length + 1 ≤ cap := by
            have hcard2 : ((st.map Prod.fst) ++ [m]).toFinset.card
                = st.length + 1 := by
              rw [List.toFinset_card_of_nodup hnd2]
              simp
            calc st.length + 1
                = ((st.map Prod.fst) ++ [m]).toFinset.card := hcard2.symm
              _ ≤ S.card := Finset.card_le_card hsub
              _ ≤ cap := hS
          have hno : ¬ cap < (st ++ [(m, f m)]).length := by
            simp only [List.length_append, List.length_cons, List.length_nil]
            omega
          have hcc : cachedCall f cap st m = (st ++ [(m, f m)], f m, true) := by
            unfold cachedCall
            rw [hfind]
            show (if cap < (st ++ [(m, f m)]).length
              then (st ++ [(m, f m)]).drop 1 else st ++ [(m, f m)],
              f m, true) = _
            rw [if_neg hno]
          have h1 : ∀ x ∈ st ++ [(m, f m)], x.1 ∈ S := by
            intro x hx
            rcases List.mem_append.1 hx with hxl | hxr
            · exact hstS x hxl
            · rw [List.mem_singleton] at hxr
              rw [hxr]
              exact hmS
          have h2 : ((st ++ [(m, f m)]).map Prod.fst).Nodup := by
            rw [List.map_append]
            simpa using hnd2
          have h3 : k ∈ (st ++ [(m, f m)]).map Prod.fst := by
            rw [List.map_append]
            exact List.mem_append_left _ hk
          have ih := runCalls_no_net_for_cached f cap k S hS hkS ks
            (st ++ [(m, f m)]) hks2 h1 h2 h3
          rw [hcc]
          refine ⟨ih.1, ih.2.1, ih.2.2.1, ?_⟩
          simp [List.countP_cons, hmk, ih.2.2.2]

theorem runCalls_single_hit {K V : Type} [DecidableEq K] (f : K → V)
    (cap : Nat) (st : List (K × V)) (k : K) (hk : k ∈ st.map Prod.fst) :
    (runCalls f cap st [k]).2 = [] := by
  obtain ⟨e, hfind⟩ :=
    Option.isSome_iff_exists.1 ((find?_key_isSome st k).2 hk)
  have hcc : cachedCall f cap st k
      = (st.filter (fun e2 => !(e2.1 == k)) ++ [(k, e.2)], e.2, false) := by
    unfold cachedCall
    rw [hfind]
  rw [runCalls_cons, hcc]
  rfl

/-- Claim C8: the fetcher is memoised with key (start, end), capacity 4
and least-recently-used eviction; a fetch of a key, then any calls on at
most three other distinct keys, then a second fetch of the same key,
issue exactly one network call for that key: the second identical fetch
is served from the cache. -/
theorem lru_cache_single_network_call
    (provider : Nat → Nat → List (Nat × ℚ)) (k : Nat × Nat)
    (mids : List (Nat × Nat)) (hmids : ∀ m ∈ mids, m ≠ k)
    (hcard : mids.toFinset.card ≤ 3) :
    ((runCalls (fun q => load_btc_history provider q.1 q.2) 4 []
        (k :: (mids ++ [k]))).2).countP (fun q => decide (q = k)) = 1 := by
  set f := fun q : Nat × Nat => load_btc_history provider q.1 q.2 with hf
  have hcck : cachedCall f 4 ([] : List ((Nat × Nat) × List PricePoint)) k
      = ([(k, f k)], f k, true) := rfl
  rw [runCalls_cons, hcck]
  show (k :: (runCalls f 4 [(k, f k)] (mids ++ [k])).2).countP
    (fun q => decide (q = k)) = 1
  rw [runCalls_append f 4 mids [k] [(k, f k)]]
  have hkS : k ∈ insert k mids.toFinset := Finset.mem_insert_self _ _
  have hS : (insert k mids.toFinset).card ≤ 4 := by
    calc (insert k mids.toFinset).card ≤ mids.toFinset.card + 1 :=
        Finset.card_insert_le _ _
      _ ≤ 4 := by omega
  have hks : ∀ m ∈ mids, m ∈ insert k mids.toFinset ∧ m ≠ k := fun m hm =>
    ⟨Finset.mem_insert_of_mem (List.mem_toFinset.2 hm), hmids m hm⟩
  have hstS : ∀ e ∈ [(k, f k)], e.1 ∈ insert k mids.toFinset := by
    intro e he
    rw [List.mem_singleton] at he
    rw [he]
    exact hkS
  have hinv := runCalls_no_net_for_cached f 4 k (insert k mids.toFinset)
    hS hkS mids [(k, f k)] hks hstS (by simp) (by simp)
  have hB : (runCalls f 4 (runCalls f 4 [(k, f k)] mids).1 [k]).2 = [] :=
    runCalls_single_hit f 4 _ k hinv.2.2.1
  rw [List.countP_cons, List.countP_append, hB, hinv.2.2.2]
  simp

theorem lru_cache_single_network_call_witness :
    ((runCalls
        (fun q => load_btc_history (fun _ _ => []) q.1 q.2) 4 []
        ((0, 1) :: ([(0, 2), (0, 3)] ++ [(0, 1)]))).2).countP
      (fun q => decide (q = (0, 1))) = 1 :=
  lru_cache_single_network_call (fun _ _ => []) (0, 1) [(0, 2), (0, 3)]
    (by decide) (by decide)


end BtcDca
